import Mathlib

/-!
Shallow embedding of `teleproj` (src/src/main.rs): a CLI tool keeping a
persistent list of project paths, resolved by index or by a scored text
match on the derived project name.  Strings are modelled as `List Char`,
the Rust `i32` score as `Int`, `usize` as `Nat`.  Filesystem effects
(existence check, canonicalization, config I/O) are external collaborators:
the resolver takes the already existence-filtered path list, and `add_path`
takes the canonicalized path together with the result of the existence
check, exactly as the Rust functions consume them.
-/

/-- Model of Rust `str::to_lowercase` (character-wise, as used on the
ASCII-style names and queries here). -/
def toLowerStr (s : List Char) : List Char :=
  s.map Char.toLower

/-- Model of Rust `str::starts_with`: `startsWith hay pat` is true when
`pat` is an initial segment of `hay`. -/
def startsWith : List Char → List Char → Bool
  | _, [] => true
  | [], _ :: _ => false
  | c :: cs, q :: qs => c = q && startsWith cs qs

/-- Model of Rust `str::contains`: `containsSub hay pat` is true when `pat`
occurs contiguously inside `hay`. -/
def containsSub : List Char → List Char → Bool
  | [], q => q.isEmpty
  | c :: cs, q => startsWith (c :: cs) q || containsSub cs q

/-- The fuzzy-scan loop of `calculate_match_score` (main.rs lines 129-140):
walk the name left to right, consuming query characters in order, counting
the matches.  Returns the accumulated count and the unconsumed query tail. -/
def fuzzyGo : List Char → List Char → Nat → Nat × List Char
  | [], qs, score => (score, qs)
  | _ :: cs, [], score => fuzzyGo cs [] score
  | c :: cs, q :: qs, score =>
    if c = q then fuzzyGo cs qs (score + 1) else fuzzyGo cs (q :: qs) score

/-- `calculate_match_score` (main.rs lines 113-147): exact match 1000,
else prefix match `500 + 10 * len(query)`, else substring match
`100 + 5 * len(query)`, else greedy subsequence scan whose count stands
only if the whole query was consumed. -/
def calculate_match_score (project_name query : List Char) : Int :=
  let project_lower := toLowerStr project_name
  let query_lower := toLowerStr query
  if project_lower = query_lower then 1000
  else if startsWith project_lower query_lower then
    500 + (query.length : Int) * 10
  else if containsSub project_lower query_lower then
    100 + (query.length : Int) * 5
  else
    let r := fuzzyGo project_lower query_lower 0
    if r.2 = [] then (r.1 : Int) else 0

/-- `get_project_name` (main.rs lines 61-66): the final path component
(Rust `Path::file_name`), falling back to `"unknown"` when the path has no
file name (root, or a trailing `..`).  Empty and `.` components are skipped
as in Rust path component normalization. -/
def get_project_name (path : List Char) : List Char :=
  let comps := (path.splitOn '/').filter fun c => c ≠ [] ∧ c ≠ ['.']
  match comps.getLast? with
  | none => ['u', 'n', 'k', 'n', 'o', 'w', 'n']
  | some c => if c = ['.', '.'] then ['u', 'n', 'k', 'n', 'o', 'w', 'n'] else c

/-- Digit-string to number, for `parseUsize`. -/
def parseDigits (s : List Char) : Option Nat :=
  if s ≠ [] ∧ s.all (·.isDigit) then
    some (s.foldl (fun n c => n * 10 + (c.toNat - 48)) 0)
  else none

/-- Model of Rust `str::parse::<usize>()`: an optional `+` sign followed by
at least one ASCII digit. -/
def parseUsize : List Char → Option Nat
  | '+' :: rest => parseDigits rest
  | s => parseDigits s

/-- One entry of the `matches` vector of `find_and_print_path`:
(original index, path, score). -/
abbrev MatchEntry := Nat × List Char × Int

/-- The `matches` vector of `find_and_print_path` (main.rs lines 159-171):
enumerate the paths, score each derived project name against the query and
keep the entries with positive score.  `i` is the index of the first
element. -/
def scoredFrom (query : List Char) (i : Nat) : List (List Char) → List MatchEntry
  | [] => []
  | p :: ps =>
    let score := calculate_match_score (get_project_name p) query
    if 0 < score then (i, p, score) :: scoredFrom query (i + 1) ps
    else scoredFrom query (i + 1) ps

/-- Insert an entry into a score-descending list, after all entries of
greater-or-equal score (the placement a stable sort gives a later element). -/
def insertByScoreDesc (x : MatchEntry) : List MatchEntry → List MatchEntry
  | [] => [x]
  | y :: ys => if y.2.2 < x.2.2 then x :: y :: ys else y :: insertByScoreDesc x ys

/-- Model of `matches.sort_by(|a, b| b.2.cmp(&a.2))` (main.rs line 173):
Rust's stable sort, descending by score, equal scores keeping list order.
A stable sort under a fixed total preorder is extensionally unique, so the
left-fold insertion sort below produces the same list. -/
def sortByScoreDesc (l : List MatchEntry) : List MatchEntry :=
  l.foldl (fun acc x => insertByScoreDesc x acc) []

/-- The order the displayed candidate list obeys: strictly greater score
first, and on equal scores the smaller original index first. -/
def entRel (a b : MatchEntry) : Prop :=
  b.2.2 < a.2.2 ∨ (a.2.2 = b.2.2 ∧ a.1 < b.1)

/-- The outcome of a resolution, mirroring the arms of
`find_and_print_path` (main.rs lines 149-193).  `direct` is the immediate
index hit; `ambiguous` carries the at most five entries the tool prints. -/
inductive ResolveResult where
  | direct (path : List Char)
  | unique (path : List Char)
  | ambiguous (shown : List MatchEntry)
  | notFound
  deriving DecidableEq

/-- The text-matching tail of `find_and_print_path` (main.rs lines
159-192): score, filter, sort, then dispatch on the number of matches. -/
def textResolve (paths : List (List Char)) (query : List Char) : ResolveResult :=
  match sortByScoreDesc (scoredFrom query 0 paths) with
  | [] => .notFound
  | [m] => .unique m.2.1
  | m1 :: m2 :: rest => .ambiguous ((m1 :: m2 :: rest).take 5)

/-- `find_and_print_path` (main.rs lines 149-193) over the
existence-filtered path list: a query that parses as a number and lands on
a valid index returns that slot at once; every other query (including a
numeric one whose index is out of range) goes through text matching. -/
def resolve (paths : List (List Char)) (query : List Char) : ResolveResult :=
  match (parseUsize query).bind (fun i => paths.get? i) with
  | some p => .direct p
  | none => textResolve paths query

/-- The persisted configuration: the ordered list of saved path strings. -/
structure Config where
  paths : List (List Char)
  deriving DecidableEq

/-- What `add_path` (main.rs lines 68-89) reports. -/
inductive AddOutcome where
  | invalidPath
  | alreadyExists
  | added
  deriving DecidableEq

/-- Exit status of the add command: only an invalid path exits nonzero. -/
def addExitCode : AddOutcome → Nat
  | .invalidPath => 1
  | .alreadyExists => 0
  | .added => 0

/-- `add_path` (main.rs lines 68-89).  `validExists` is the result of the
`is_valid_path` filesystem check and `canonical` the canonicalized path
string, both produced by the I/O collaborators. -/
def add_path (validExists : Bool) (canonical : List Char) (config : Config) :
    Config × AddOutcome :=
  if !validExists then (config, .invalidPath)
  else if canonical ∈ config.paths then (config, .alreadyExists)
  else (⟨config.paths ++ [canonical]⟩, .added)

/-! ### Score characterization lemmas -/

theorem score_of_exact {n q : List Char} (h : toLowerStr n = toLowerStr q) :
    calculate_match_score n q = 1000 := by
  simp [calculate_match_score, h]

theorem score_of_startsWith {n q : List Char} (h1 : toLowerStr n ≠ toLowerStr q)
    (h2 : startsWith (toLowerStr n) (toLowerStr q) = true) :
    calculate_match_score n q = 500 + (q.length : Int) * 10 := by
  simp [calculate_match_score, h1, h2]

theorem score_of_contains {n q : List Char} (h1 : toLowerStr n ≠ toLowerStr q)
    (h2 : startsWith (toLowerStr n) (toLowerStr q) = false)
    (h3 : containsSub (toLowerStr n) (toLowerStr q) = true) :
    calculate_match_score n q = 100 + (q.length : Int) * 5 := by
  simp [calculate_match_score, h1, h2, h3]

theorem fuzzyGo_count (n : List Char) :
    ∀ (q : List Char) (s : Nat),
      (fuzzyGo n q s).1 + (fuzzyGo n q s).2.length = s + q.length := by
  induction n with
  | nil => intro q s; simp [fuzzyGo]
  | cons c cs ih =>
    intro q s
    cases q with
    | nil => simpa [fuzzyGo] using ih [] s
    | cons x xs =>
      by_cases hcx : c = x
      · subst hcx
        rw [show fuzzyGo (c :: cs) (c :: xs) s = fuzzyGo cs xs (s + 1) by
          simp [fuzzyGo]]
        have := ih xs (s + 1)
        simp only [List.length_cons]
        omega
      · rw [show fuzzyGo (c :: cs) (x :: xs) s = fuzzyGo cs (x :: xs) s by
          simp [fuzzyGo, hcx]]
        exact ih (x :: xs) s

theorem fuzzyGo_done (n : List Char) :
    ∀ (q : List Char) (s : Nat), (fuzzyGo n q s).2 = [] ↔ q.Sublist n := by
  induction n with
  | nil =>
    intro q s
    constructor
    · intro h; simp [fuzzyGo] at h; simp [h]
    · intro h; simpa [fuzzyGo] using List.sublist_nil.mp h
  | cons c cs ih =>
    intro q s
    cases q with
    | nil => simpa [fuzzyGo] using ih [] s
    | cons x xs =>
      by_cases hcx : c = x
      · subst hcx
        rw [show fuzzyGo (c :: cs) (c :: xs) s = fuzzyGo cs xs (s + 1) by
          simp [fuzzyGo]]
        rw [ih xs (s + 1)]
        constructor
        · exact fun h => h.cons₂ c
        · intro h
          cases h with
          | cons _ h2 => exact (List.sublist_of_cons_sublist h2)
          | cons₂ _ h2 => exact h2
      · rw [show fuzzyGo (c :: cs) (x :: xs) s = fuzzyGo cs (x :: xs) s by
          simp [fuzzyGo, hcx]]
        rw [ih (x :: xs) s]
        constructor
        · exact fun h => h.cons c
        · intro h
          cases h with
          | cons _ h2 => exact h2
          | cons₂ _ h2 => exact absurd rfl hcx

theorem score_of_fuzzy_success {n q : List Char} (h1 : toLowerStr n ≠ toLowerStr q)
    (h2 : startsWith (toLowerStr n) (toLowerStr q) = false)
    (h3 : containsSub (toLowerStr n) (toLowerStr q) = false)
    (h4 : (toLowerStr q).Sublist (toLowerStr n)) :
    calculate_match_score n q = (q.length : Int) := by
  have hdone : (fuzzyGo (toLowerStr n) (toLowerStr q) 0).2 = [] :=
    (fuzzyGo_done _ _ _).mpr h4
  have hcount := fuzzyGo_count (toLowerStr n) (toLowerStr q) 0
  rw [hdone] at hcount
  simp only [List.length_nil, Nat.add_zero, Nat.zero_add] at hcount
  have hlen : (toLowerStr q).length = q.length := List.length_map _ _
  simp only [calculate_match_score, h1, h2, h3, if_neg, if_false,
    Bool.false_eq_true, ite_false, hdone, ite_true]
  rw [hcount, hlen]

theorem score_of_fuzzy_fail {n q : List Char} (h1 : toLowerStr n ≠ toLowerStr q)
    (h2 : startsWith (toLowerStr n) (toLowerStr q) = false)
    (h3 : containsSub (toLowerStr n) (toLowerStr q) = false)
    (h4 : ¬ (toLowerStr q).Sublist (toLowerStr n)) :
    calculate_match_score n q = 0 := by
  have hdone : (fuzzyGo (toLowerStr n) (toLowerStr q) 0).2 ≠ [] :=
    fun h => h4 ((fuzzyGo_done _ _ _).mp h)
  simp [calculate_match_score, h1, h2, h3, hdone]

/-! ### Sorting lemmas -/

theorem insertByScoreDesc_pos {x y : MatchEntry} {ys : List MatchEntry}
    (h : y.2.2 < x.2.2) : insertByScoreDesc x (y :: ys) = x :: y :: ys := by
  simp [insertByScoreDesc, h]

theorem insertByScoreDesc_neg {x y : MatchEntry} {ys : List MatchEntry}
    (h : ¬ y.2.2 < x.2.2) :
    insertByScoreDesc x (y :: ys) = y :: insertByScoreDesc x ys := by
  simp [insertByScoreDesc, h]

theorem insertByScoreDesc_perm (x : MatchEntry) (l : List MatchEntry) :
    (insertByScoreDesc x l).Perm (x :: l) := by
  induction l with
  | nil => simp [insertByScoreDesc]
  | cons y ys ih =>
    by_cases h : y.2.2 < x.2.2
    · rw [insertByScoreDesc_pos h]
    · rw [insertByScoreDesc_neg h]
      exact (ih.cons y).trans (List.Perm.swap x y ys)

theorem mem_insertByScoreDesc {a x : MatchEntry} {l : List MatchEntry} :
    a ∈ insertByScoreDesc x l ↔ a = x ∨ a ∈ l := by
  rw [(insertByScoreDesc_perm x l).mem_iff]
  simp

theorem pairwise_insertByScoreDesc {x : MatchEntry} {l : List MatchEntry}
    (hl : l.Pairwise entRel) (hidx : ∀ y ∈ l, y.1 < x.1) :
    (insertByScoreDesc x l).Pairwise entRel := by
  induction l with
  | nil => simp [insertByScoreDesc, entRel]
  | cons y ys ih =>
    rw [List.pairwise_cons] at hl
    by_cases h : y.2.2 < x.2.2
    · rw [insertByScoreDesc_pos h, List.pairwise_cons]
      constructor
      · intro z hz
        rcases List.mem_cons.mp hz with rfl | hz
        · exact Or.inl h
        · rcases hl.1 z hz with h2 | h2
          · exact Or.inl (h2.trans h)
          · exact Or.inl (h2.1 ▸ h)
      · exact List.pairwise_cons.mpr hl
    · rw [insertByScoreDesc_neg h, List.pairwise_cons]
      refine ⟨?_, ih hl.2 fun z hz => hidx z (List.mem_cons_of_mem y hz)⟩
      intro z hz
      rcases mem_insertByScoreDesc.mp hz with rfl | hz
      · rcases lt_or_eq_of_le (not_lt.mp h) with h2 | h2
        · exact Or.inl h2
        · exact Or.inr ⟨h2.symm, hidx y (List.mem_cons_self y ys)⟩
      · exact hl.1 z hz

theorem foldl_insert_perm (l : List MatchEntry) :
    ∀ acc : List MatchEntry,
      (l.foldl (fun acc x => insertByScoreDesc x acc) acc).Perm (acc ++ l) := by
  induction l with
  | nil => intro acc; simp
  | cons x xs ih =>
    intro acc
    have h1 : (x :: xs).foldl (fun acc x => insertByScoreDesc x acc) acc =
        xs.foldl (fun acc x => insertByScoreDesc x acc) (insertByScoreDesc x acc) := rfl
    rw [h1]
    have h2 := ih (insertByScoreDesc x acc)
    have h3 : (insertByScoreDesc x acc ++ xs).Perm ((x :: acc) ++ xs) :=
      (insertByScoreDesc_perm x acc).append_right xs
    have h4 : ((x :: acc) ++ xs) = x :: (acc ++ xs) := rfl
    have h5 : (x :: (acc ++ xs)).Perm (acc ++ x :: xs) := List.perm_middle.symm
    exact ((h2.trans h3).trans (h4 ▸ h5))

theorem sortByScoreDesc_perm (l : List MatchEntry) :
    (sortByScoreDesc l).Perm l := by
  simpa using foldl_insert_perm l []

theorem foldl_insert_pairwise (l : List MatchEntry) :
    ∀ acc : List MatchEntry, acc.Pairwise entRel →
      (∀ x ∈ l, ∀ y ∈ acc, y.1 < x.1) →
      l.Pairwise (fun a b => a.1 < b.1) →
      (l.foldl (fun acc x => insertByScoreDesc x acc) acc).Pairwise entRel := by
  induction l with
  | nil => intro acc hacc _ _; exact hacc
  | cons x xs ih =>
    intro acc hacc hcross hl
    rw [List.pairwise_cons] at hl
    refine ih (insertByScoreDesc x acc) ?_ ?_ hl.2
    · exact pairwise_insertByScoreDesc hacc
        (fun y hy => hcross x (List.mem_cons_self x xs) y hy)
    · intro z hz y hy
      rcases mem_insertByScoreDesc.mp hy with rfl | hy
      · exact hl.1 z hz
      · exact hcross z (List.mem_cons_of_mem x hz) y hy

theorem sortByScoreDesc_pairwise {l : List MatchEntry}
    (hl : l.Pairwise (fun a b => a.1 < b.1)) :
    (sortByScoreDesc l).Pairwise entRel :=
  foldl_insert_pairwise l [] (List.Pairwise.nil) (by simp) hl

/-! ### Lemmas about the scored-matches list -/

theorem scoredFrom_cons_pos {q p : List Char} {ps : List (List Char)} {i : Nat}
    (h : 0 < calculate_match_score (get_project_name p) q) :
    scoredFrom q i (p :: ps) =
      (i, p, calculate_match_score (get_project_name p) q) :: scoredFrom q (i + 1) ps := by
  simp [scoredFrom, h]

theorem scoredFrom_cons_neg {q p : List Char} {ps : List (List Char)} {i : Nat}
    (h : ¬ 0 < calculate_match_score (get_project_name p) q) :
    scoredFrom q i (p :: ps) = scoredFrom q (i + 1) ps := by
  simp [scoredFrom, h]

theorem scoredFrom_append (q : List Char) (l1 : List (List Char)) :
    ∀ (i : Nat) (l2 : List (List Char)),
      scoredFrom q i (l1 ++ l2) =
        scoredFrom q i l1 ++ scoredFrom q (i + l1.length) l2 := by
  induction l1 with
  | nil => intro i l2; simp [scoredFrom]
  | cons p ps ih =>
    intro i l2
    have harith : i + 1 + ps.length = i + (ps.length + 1) := by omega
    by_cases h : 0 < calculate_match_score (get_project_name p) q
    · rw [List.cons_append, scoredFrom_cons_pos h, scoredFrom_cons_pos h,
        ih (i + 1) l2, List.length_cons, harith, List.cons_append]
    · rw [List.cons_append, scoredFrom_cons_neg h, scoredFrom_cons_neg h,
        ih (i + 1) l2, List.length_cons, harith]

theorem scoredFrom_eq_nil {q : List Char} {l : List (List Char)}
    (h : ∀ p ∈ l, calculate_match_score (get_project_name p) q ≤ 0) :
    ∀ i : Nat, scoredFrom q i l = [] := by
  induction l with
  | nil => intro i; rfl
  | cons p ps ih =>
    intro i
    have h1 : ¬ 0 < calculate_match_score (get_project_name p) q :=
      not_lt.mpr (h p (List.mem_cons_self p ps))
    rw [scoredFrom_cons_neg h1]
    exact ih (fun x hx => h x (List.mem_cons_of_mem p hx)) (i + 1)

theorem mem_scoredFrom {q : List Char} {e : MatchEntry} {l : List (List Char)} :
    ∀ i : Nat, e ∈ scoredFrom q i l →
      ∃ j, j < l.length ∧ e.1 = i + j ∧ l.get? j = some e.2.1 ∧
        e.2.2 = calculate_match_score (get_project_name e.2.1) q ∧ 0 < e.2.2 := by
  induction l with
  | nil => intro i h; simp [scoredFrom] at h
  | cons p ps ih =>
    intro i h
    by_cases hs : 0 < calculate_match_score (get_project_name p) q
    · rw [scoredFrom_cons_pos hs] at h
      rcases List.mem_cons.mp h with rfl | h
      · exact ⟨0, by simp, by simp, by simp [List.get?], by simp, hs⟩
      · rcases ih (i + 1) h with ⟨j, hj, he1, he2, he3, he4⟩
        exact ⟨j + 1, by simpa using Nat.succ_lt_succ hj, by omega,
          by simpa [List.get?] using he2, he3, he4⟩
    · rw [scoredFrom_cons_neg hs] at h
      rcases ih (i + 1) h with ⟨j, hj, he1, he2, he3, he4⟩
      exact ⟨j + 1, by simpa using Nat.succ_lt_succ hj, by omega,
        by simpa [List.get?] using he2, he3, he4⟩

theorem scoredFrom_idx_le {q : List Char} {l : List (List Char)} :
    ∀ i : Nat, ∀ e ∈ scoredFrom q i l, i ≤ e.1 := by
  intro i e he
  rcases mem_scoredFrom i he with ⟨j, _, he1, _⟩
  omega

theorem pairwise_idx_scoredFrom (q : List Char) (l : List (List Char)) :
    ∀ i : Nat, (scoredFrom q i l).Pairwise (fun a b => a.1 < b.1) := by
  induction l with
  | nil => intro i; simp [scoredFrom]
  | cons p ps ih =>
    intro i
    by_cases hs : 0 < calculate_match_score (get_project_name p) q
    · rw [scoredFrom_cons_pos hs, List.pairwise_cons]
      refine ⟨?_, ih (i + 1)⟩
      intro e he
      have := scoredFrom_idx_le (i + 1) e he
      omega
    · rw [scoredFrom_cons_neg hs]
      exact ih (i + 1)

theorem mem_scoredFrom_of {q : List Char} {l : List (List Char)} :
    ∀ (i j : Nat) (hj : j < l.length),
      0 < calculate_match_score (get_project_name (l.get ⟨j, hj⟩)) q →
      (i + j, l.get ⟨j, hj⟩,
        calculate_match_score (get_project_name (l.get ⟨j, hj⟩)) q) ∈
        scoredFrom q i l := by
  induction l with
  | nil => intro i j hj; simp at hj
  | cons p ps ih =>
    intro i j hj hpos
    cases j with
    | zero =>
      simp only [List.get] at hpos ⊢
      rw [scoredFrom_cons_pos hpos]
      simp
    | succ j =>
      have hj2 : j < ps.length := Nat.lt_of_succ_lt_succ hj
      simp only [List.get] at hpos ⊢
      have hmem := ih (i + 1) j hj2 hpos
      have harith : i + (j + 1) = i + 1 + j := by omega
      by_cases hs : 0 < calculate_match_score (get_project_name p) q
      · rw [scoredFrom_cons_pos hs, harith]
        exact List.mem_cons_of_mem _ hmem
      · rw [scoredFrom_cons_neg hs, harith]
        exact hmem

/-! ### Resolver-level lemmas -/

theorem get_project_name_ne_nil (p : List Char) : get_project_name p ≠ [] := by
  have heq : get_project_name p =
      (match ((p.splitOn '/').filter fun c => c ≠ [] ∧ c ≠ ['.']).getLast? with
       | none => ['u', 'n', 'k', 'n', 'o', 'w', 'n']
       | some c =>
         if c = ['.', '.'] then ['u', 'n', 'k', 'n', 'o', 'w', 'n'] else c) := rfl
  rw [heq]
  cases hlast : ((p.splitOn '/').filter fun c => c ≠ [] ∧ c ≠ ['.']).getLast? with
  | none => simp
  | some c =>
    have hmem : c ∈ (p.splitOn '/').filter fun c => c ≠ [] ∧ c ≠ ['.'] := by
      rcases List.mem_getLast?_eq_getLast (x := c) (by rw [hlast]; rfl) with ⟨hne, hc⟩
      exact hc ▸ List.getLast_mem hne
    have hcne : c ≠ [] := by
      have := (List.mem_filter.mp hmem).2
      simp at this
      exact this.1
    by_cases hdd : c = ['.', '.']
    · simp [hdd]
    · simp [hdd, hcne]

theorem resolve_of_parse_none {paths : List (List Char)} {q : List Char}
    (h : parseUsize q = none) : resolve paths q = textResolve paths q := by
  simp [resolve, h]

theorem resolve_of_parse_out {paths : List (List Char)} {q : List Char} {k : Nat}
    (h : parseUsize q = some k) (hout : paths.length ≤ k) :
    resolve paths q = textResolve paths q := by
  simp [resolve, h, List.get?_eq_getElem?, List.getElem?_eq_none hout]

theorem resolve_eq_textResolve {paths : List (List Char)} {q : List Char}
    (h : ∀ k, parseUsize q = some k → paths.length ≤ k) :
    resolve paths q = textResolve paths q := by
  cases hp : parseUsize q with
  | none => exact resolve_of_parse_none hp
  | some k => exact resolve_of_parse_out hp (h k hp)

theorem sortByScoreDesc_eq_nil_iff {l : List MatchEntry} :
    sortByScoreDesc l = [] ↔ l = [] := by
  constructor
  · intro h
    have := (sortByScoreDesc_perm l).length_eq
    rw [h] at this
    exact List.length_eq_zero.mp this.symm
  · intro h; rw [h]; rfl

theorem two_mem_length {α : Type} {a b : α} {l : List α}
    (ha : a ∈ l) (hb : b ∈ l) (hab : a ≠ b) : 2 ≤ l.length := by
  match l with
  | [] => simp at ha
  | [x] =>
    rw [List.mem_singleton] at ha hb
    exact absurd (ha.trans hb.symm) hab
  | x :: y :: rest => simp [List.length_cons]

theorem textResolve_ambiguous_of_two {paths : List (List Char)} {q : List Char}
    (h : 2 ≤ (scoredFrom q 0 paths).length) :
    ∃ shown, textResolve paths q = .ambiguous shown := by
  have hlen : 2 ≤ (sortByScoreDesc (scoredFrom q 0 paths)).length := by
    rw [(sortByScoreDesc_perm _).length_eq]
    exact h
  unfold textResolve
  match hm : sortByScoreDesc (scoredFrom q 0 paths) with
  | [] => rw [hm] at hlen; simp at hlen
  | [m] => rw [hm] at hlen; simp at hlen
  | m1 :: m2 :: rest => exact ⟨_, rfl⟩

theorem startsWith_nil (l : List Char) : startsWith l [] = true := by
  cases l <;> rfl

theorem textResolve_eq_notFound_iff {paths : List (List Char)} {q : List Char} :
    textResolve paths q = ResolveResult.notFound ↔ scoredFrom q 0 paths = [] := by
  constructor
  · intro h
    unfold textResolve at h
    rcases hm : sortByScoreDesc (scoredFrom q 0 paths) with _ | ⟨m1, _ | ⟨m2, rest⟩⟩
    · exact sortByScoreDesc_eq_nil_iff.mp hm
    · rw [hm] at h; simp at h
    · rw [hm] at h; simp at h
  · intro h
    unfold textResolve
    rw [h]
    rfl

theorem textResolve_ambiguous_inv {paths : List (List Char)} {q : List Char}
    {shown : List MatchEntry}
    (h : textResolve paths q = ResolveResult.ambiguous shown) :
    shown = (sortByScoreDesc (scoredFrom q 0 paths)).take 5 := by
  unfold textResolve at h
  rcases hm : sortByScoreDesc (scoredFrom q 0 paths) with _ | ⟨m1, _ | ⟨m2, rest⟩⟩
  · rw [hm] at h; simp at h
  · rw [hm] at h; simp at h
  · rw [hm] at h
    simp only [ResolveResult.ambiguous.injEq] at h
    rw [← h]

/-! ### Claims -/

/-- Claim C3: with name and query compared lower-cased, exact equality
yields score 1000; otherwise a prefix match (name starts with query) yields
exactly 500 + 10 * len(query); otherwise a substring match (name contains
query, not as a prefix) yields exactly 100 + 5 * len(query). -/
theorem claim_C3_score_tiers :
    ∀ n q : List Char,
      (toLowerStr n = toLowerStr q → calculate_match_score n q = 1000) ∧
      (toLowerStr n ≠ toLowerStr q →
        startsWith (toLowerStr n) (toLowerStr q) = true →
        calculate_match_score n q = 500 + (q.length : Int) * 10) ∧
      (toLowerStr n ≠ toLowerStr q →
        startsWith (toLowerStr n) (toLowerStr q) = false →
        containsSub (toLowerStr n) (toLowerStr q) = true →
        calculate_match_score n q = 100 + (q.length : Int) * 5) :=
  fun _ _ =>
    ⟨score_of_exact, score_of_startsWith, score_of_contains⟩

theorem claim_C3_score_tiers_witness :
    calculate_match_score (("app").toList) (("app").toList) = 1000 ∧
    calculate_match_score (("apple").toList) (("app").toList) =
      500 + ((("app").toList).length : Int) * 10 ∧
    calculate_match_score (("xab").toList) (("ab").toList) =
      100 + ((("ab").toList).length : Int) * 5 :=
  ⟨(claim_C3_score_tiers (("app").toList) (("app").toList)).1 (by decide),
   (claim_C3_score_tiers (("apple").toList) (("app").toList)).2.1
     (by decide) (by decide),
   (claim_C3_score_tiers (("xab").toList) (("ab").toList)).2.2
     (by decide) (by decide) (by decide)⟩

/-- Claim C4: when none of the exact/prefix/contains rules applies, the
score comes from the greedy left-to-right scan of the lower-cased name
consuming lower-cased query characters in order.  The scan consumes every
query character exactly when the lower-cased query is a subsequence of the
lower-cased name; in that case the accumulated match count (which equals
len(query)) is the score, otherwise the score is 0.  Concretely, query
"ab" scores 2 against name "xaxbx" and 0 against name "ba". -/
theorem claim_C4_fuzzy_scan :
    (∀ n q : List Char, toLowerStr n ≠ toLowerStr q →
      startsWith (toLowerStr n) (toLowerStr q) = false →
      containsSub (toLowerStr n) (toLowerStr q) = false →
      ((toLowerStr q).Sublist (toLowerStr n) →
        calculate_match_score n q = (q.length : Int)) ∧
      (¬ (toLowerStr q).Sublist (toLowerStr n) →
        calculate_match_score n q = 0)) ∧
    calculate_match_score (("xaxbx").toList) (("ab").toList) = 2 ∧
    calculate_match_score (("ba").toList) (("ab").toList) = 0 := by
  refine ⟨fun n q h1 h2 h3 => ⟨?_, ?_⟩, by decide, by decide⟩
  · exact score_of_fuzzy_success h1 h2 h3
  · exact score_of_fuzzy_fail h1 h2 h3

theorem claim_C4_fuzzy_scan_witness :
    calculate_match_score (("frontend").toList) (("fe").toList) = 2 ∧
    calculate_match_score (("backend").toList) (("fe").toList) = 0 :=
  ⟨((claim_C4_fuzzy_scan.1 (("frontend").toList) (("fe").toList)
      (by decide) (by decide) (by decide)).1 (by decide)),
   ((claim_C4_fuzzy_scan.1 (("backend").toList) (("fe").toList)
      (by decide) (by decide) (by decide)).2 (by decide))⟩

/-- Claim C6: a query that parses as a non-negative integer which is a
valid index into the existence-filtered path list resolves immediately to
the path at that slot, bypassing scoring entirely — the result depends only
on the index, whatever the project names are. -/
theorem claim_C6_direct_index (paths : List (List Char)) (q : List Char)
    (i : Nat) (hparse : parseUsize q = some i) (hi : i < paths.length) :
    resolve paths q = ResolveResult.direct (paths.get ⟨i, hi⟩) := by
  simp [resolve, hparse, List.get?_eq_getElem?, List.getElem?_eq_getElem hi,
    List.get_eq_getElem]

/-- Witness for C6: query "0" is the saved name of the second path, yet the
resolver returns the first path (slot 0), showing scoring is bypassed. -/
theorem claim_C6_direct_index_witness :
    resolve [("/x/banana").toList, ("/y/0").toList] (("0").toList) =
      ResolveResult.direct (("/x/banana").toList) :=
  claim_C6_direct_index [("/x/banana").toList, ("/y/0").toList]
    (("0").toList) 0 (by decide) (by decide)

/-- Claim C8: for the empty-string query the prefix rule fires for every
candidate whose (never empty, possibly the "unknown" fallback) project name
is non-empty, giving score exactly 500; consequently every saved existing
path enters the candidate list, all tied at 500. -/
theorem claim_C8_empty_query (paths : List (List Char)) :
    (∀ n : List Char, n ≠ [] → calculate_match_score n [] = 500) ∧
    (scoredFrom [] 0 paths).length = paths.length ∧
    (∀ e ∈ scoredFrom [] 0 paths, e.2.2 = 500) := by
  have hscore : ∀ n : List Char, n ≠ [] → calculate_match_score n [] = 500 := by
    intro n hn
    have hne : toLowerStr n ≠ toLowerStr [] := by
      simpa [toLowerStr] using hn
    have := score_of_startsWith hne (startsWith_nil (toLowerStr n))
    simpa using this
  have hall : ∀ l : List (List Char), ∀ i : Nat,
      (scoredFrom [] i l).length = l.length ∧
      (∀ e ∈ scoredFrom [] i l, e.2.2 = 500) := by
    intro l
    induction l with
    | nil => intro i; exact ⟨rfl, by simp [scoredFrom]⟩
    | cons p ps ih =>
      intro i
      have hp : calculate_match_score (get_project_name p) [] = 500 :=
        hscore _ (get_project_name_ne_nil p)
      have hpos : 0 < calculate_match_score (get_project_name p) [] := by
        rw [hp]; norm_num
      rw [scoredFrom_cons_pos hpos]
      refine ⟨by simp [(ih (i + 1)).1], ?_⟩
      intro e he
      rcases List.mem_cons.mp he with rfl | he
      · exact hp
      · exact (ih (i + 1)).2 e he
  exact ⟨hscore, (hall paths 0).1, (hall paths 0).2⟩

theorem claim_C8_empty_query_witness :
    calculate_match_score (("app").toList) [] = 500 :=
  (claim_C8_empty_query []).1 (("app").toList) (by decide)

/-- Claim C9: adding a path whose canonical form is already stored is an
informational no-op: the configuration is unchanged, the path still has
exactly one stored entry, the outcome is the "already exists" message, and
the exit code is 0. -/
theorem claim_C9_duplicate_add (canonical : List Char) (config : Config)
    (h : config.paths.count canonical = 1) :
    (add_path true canonical config).1 = config ∧
    (add_path true canonical config).1.paths.count canonical = 1 ∧
    (add_path true canonical config).2 = AddOutcome.alreadyExists ∧
    addExitCode (add_path true canonical config).2 = 0 := by
  have hmem : canonical ∈ config.paths :=
    List.count_pos_iff.mp (by omega)
  simp [add_path, hmem, addExitCode, h]

theorem claim_C9_duplicate_add_witness :
    (add_path true (("/p/app").toList) ⟨[("/p/app").toList]⟩).1 =
      (⟨[("/p/app").toList]⟩ : Config) ∧
    (add_path true (("/p/app").toList) ⟨[("/p/app").toList]⟩).1.paths.count
      (("/p/app").toList) = 1 ∧
    (add_path true (("/p/app").toList) ⟨[("/p/app").toList]⟩).2 =
      AddOutcome.alreadyExists ∧
    addExitCode (add_path true (("/p/app").toList) ⟨[("/p/app").toList]⟩).2 = 0 :=
  claim_C9_duplicate_add (("/p/app").toList) ⟨[("/p/app").toList]⟩ (by decide)

/-- Counterexample to claim C1 as stated: the query "app" is
case-insensitively equal to the derived name of exactly one saved path
("/p/app"; the other name is "apple"), yet the resolver does not return
that path uniquely — both candidates score positively (1000 and 530), so
the tool prints the disambiguation list even though a single candidate
holds the maximum positive score. -/
theorem claim_C1_counterexample :
    (([("/p/app").toList, ("/p/apple").toList].filter fun p =>
        toLowerStr (get_project_name p) = toLowerStr (("app").toList)).length
      = 1) ∧
    resolve [("/p/app").toList, ("/p/apple").toList] (("app").toList) ≠
      ResolveResult.unique (("/p/app").toList) ∧
    resolve [("/p/app").toList, ("/p/apple").toList] (("app").toList) =
      ResolveResult.ambiguous
        [(0, ("/p/app").toList, 1000), (1, ("/p/apple").toList, 530)] := by
  decide

/-- Claim C1 as amended: the resolver returns a path uniquely exactly when
one single candidate scores positively.  In particular, if the query does
not resolve as a valid numeric index, one saved path's derived name is
case-insensitively equal to the query, and every other saved path scores
non-positively, then resolve returns that path uniquely. -/
theorem claim_C1_unique_positive (l1 l2 : List (List Char)) (p q : List Char)
    (hq : ∀ k, parseUsize q = some k → (l1 ++ p :: l2).length ≤ k)
    (hname : toLowerStr (get_project_name p) = toLowerStr q)
    (hothers : ∀ x ∈ l1 ++ l2,
      calculate_match_score (get_project_name x) q ≤ 0) :
    resolve (l1 ++ p :: l2) q = ResolveResult.unique p := by
  rw [resolve_eq_textResolve hq]
  have hp : calculate_match_score (get_project_name p) q = 1000 :=
    score_of_exact hname
  have h1 : scoredFrom q 0 l1 = [] :=
    scoredFrom_eq_nil (fun x hx => hothers x (List.mem_append_left _ hx)) 0
  have h2 : scoredFrom q (l1.length + 1) l2 = [] :=
    scoredFrom_eq_nil (fun x hx => hothers x (List.mem_append_right _ hx)) _
  have hpos : 0 < calculate_match_score (get_project_name p) q := by
    rw [hp]; norm_num
  have hsingle : scoredFrom q 0 (l1 ++ p :: l2) = [(l1.length, p, 1000)] := by
    rw [scoredFrom_append q l1 0 (p :: l2), h1, scoredFrom_cons_pos hpos,
      hp, Nat.zero_add, h2]
    rfl
  unfold textResolve
  rw [hsingle]
  rfl

theorem claim_C1_unique_positive_witness :
    resolve [("/p/app").toList, ("/p/zzz").toList] (("app").toList) =
      ResolveResult.unique (("/p/app").toList) :=
  claim_C1_unique_positive [] [("/p/zzz").toList] (("/p/app").toList)
    (("app").toList)
    (fun k hk => by
      rw [show parseUsize (("app").toList) = none from by decide] at hk
      cases hk)
    (by decide) (by decide)

/-- Counterexample to claim C2 as stated: the query "7" parses as the
number 7, which is not a valid position in the single-element path list,
yet resolution does not fail — the resolver falls through to text scoring,
finds the name "7" as an exact match and returns the path. -/
theorem claim_C2_counterexample :
    parseUsize (("7").toList) = some 7 ∧
    ([("/a/7").toList] : List (List Char)).length ≤ 7 ∧
    resolve [("/a/7").toList] (("7").toList) =
      ResolveResult.unique (("/a/7").toList) ∧
    resolve [("/a/7").toList] (("7").toList) ≠ ResolveResult.notFound := by
  decide

/-- Claim C2 as amended: a query that parses as a non-negative integer with
no valid position in the existence-filtered path list falls through to text
matching, and resolution fails (NotFound) exactly when text matching also
produces no positively scored candidate. -/
theorem claim_C2_numeric_fallthrough (paths : List (List Char))
    (q : List Char) (k : Nat) (hk : parseUsize q = some k)
    (hout : paths.length ≤ k) :
    resolve paths q = textResolve paths q ∧
    (resolve paths q = ResolveResult.notFound ↔ scoredFrom q 0 paths = []) := by
  have h1 := resolve_of_parse_out hk hout
  rw [h1]
  exact ⟨rfl, textResolve_eq_notFound_iff⟩

theorem claim_C2_numeric_fallthrough_witness :
    resolve [("/a/7").toList] (("7").toList) =
      textResolve [("/a/7").toList] (("7").toList) ∧
    (resolve [("/a/7").toList] (("7").toList) = ResolveResult.notFound ↔
      scoredFrom (("7").toList) 0 [("/a/7").toList] = []) :=
  claim_C2_numeric_fallthrough [("/a/7").toList] (("7").toList) 7
    (by decide) (by decide)

/-- Counterexample to claim C5 as stated: with a query of 50 characters,
an exact-match candidate scores 1000 while a prefix-match candidate scores
500 + 10 * 50 = 1000 as well — the exact tier is not strictly greater. -/
theorem claim_C5_counterexample :
    toLowerStr (List.replicate 51 'a') ≠ toLowerStr (List.replicate 50 'a') ∧
    startsWith (toLowerStr (List.replicate 51 'a'))
      (toLowerStr (List.replicate 50 'a')) = true ∧
    calculate_match_score (List.replicate 50 'a') (List.replicate 50 'a')
      = 1000 ∧
    calculate_match_score (List.replicate 51 'a') (List.replicate 50 'a')
      = 1000 ∧
    ¬ (calculate_match_score (List.replicate 51 'a') (List.replicate 50 'a') <
        calculate_match_score (List.replicate 50 'a') (List.replicate 50 'a')) := by
  decide

/-- Claim C5 as amended: for the same query, a prefix-match candidate
always scores strictly above a contains-match candidate, which always
scores strictly above a successful fuzzy-subsequence candidate; an
exact-match candidate scores strictly above a prefix-match candidate
whenever the query is shorter than 50 characters (at length exactly 50 the
two tiers tie at 1000). -/
theorem claim_C5_score_ordering (q nE nP nC nF : List Char)
    (hE : toLowerStr nE = toLowerStr q)
    (hP1 : toLowerStr nP ≠ toLowerStr q)
    (hP2 : startsWith (toLowerStr nP) (toLowerStr q) = true)
    (hC1 : toLowerStr nC ≠ toLowerStr q)
    (hC2 : startsWith (toLowerStr nC) (toLowerStr q) = false)
    (hC3 : containsSub (toLowerStr nC) (toLowerStr q) = true)
    (hF1 : toLowerStr nF ≠ toLowerStr q)
    (hF2 : startsWith (toLowerStr nF) (toLowerStr q) = false)
    (hF3 : containsSub (toLowerStr nF) (toLowerStr q) = false)
    (hF4 : (toLowerStr q).Sublist (toLowerStr nF)) :
    (q.length < 50 →
      calculate_match_score nP q < calculate_match_score nE q) ∧
    calculate_match_score nC q < calculate_match_score nP q ∧
    calculate_match_score nF q < calculate_match_score nC q := by
  rw [score_of_exact hE, score_of_startsWith hP1 hP2,
    score_of_contains hC1 hC2 hC3, score_of_fuzzy_success hF1 hF2 hF3 hF4]
  refine ⟨fun h => ?_, by omega, by omega⟩
  omega

theorem claim_C5_score_ordering_witness :
    (((("ab").toList).length < 50 →
      calculate_match_score (("abc").toList) (("ab").toList) <
        calculate_match_score (("ab").toList) (("ab").toList)) ∧
    calculate_match_score (("xab").toList) (("ab").toList) <
      calculate_match_score (("abc").toList) (("ab").toList) ∧
    calculate_match_score (("axb").toList) (("ab").toList) <
      calculate_match_score (("xab").toList) (("ab").toList)) :=
  claim_C5_score_ordering (("ab").toList) (("ab").toList) (("abc").toList)
    (("xab").toList) (("axb").toList)
    (by decide) (by decide) (by decide) (by decide) (by decide) (by decide)
    (by decide) (by decide) (by decide) (by decide)

/-- Claim C7: whenever the resolver reports ambiguity, the displayed
candidate list has at most 5 entries, is ordered by strictly descending
score with equal-score entries in their original (index) order — exactly
what Rust's stable descending sort produces — and every displayed entry is
a genuine candidate: its path sits at its original index in the filtered
list and its positive score is the match score of its derived name. -/
theorem claim_C7_ambiguous_display (paths : List (List Char)) (q : List Char)
    (shown : List MatchEntry)
    (h : resolve paths q = ResolveResult.ambiguous shown) :
    shown.length ≤ 5 ∧
    shown.Pairwise entRel ∧
    ∀ e ∈ shown, paths.get? e.1 = some e.2.1 ∧
      e.2.2 = calculate_match_score (get_project_name e.2.1) q ∧
      0 < e.2.2 := by
  have htext : textResolve paths q = ResolveResult.ambiguous shown := by
    unfold resolve at h
    cases hb : (parseUsize q).bind (fun i => paths.get? i) with
    | some p => rw [hb] at h; exact absurd h (by simp)
    | none => rw [hb] at h; exact h
  have hshown := textResolve_ambiguous_inv htext
  have hpw : (sortByScoreDesc (scoredFrom q 0 paths)).Pairwise entRel :=
    sortByScoreDesc_pairwise (pairwise_idx_scoredFrom q paths 0)
  refine ⟨?_, ?_, ?_⟩
  · rw [hshown, List.length_take]
    omega
  · rw [hshown]
    exact hpw.sublist (List.take_sublist 5 _)
  · intro e he
    rw [hshown] at he
    have hmem : e ∈ sortByScoreDesc (scoredFrom q 0 paths) :=
      (List.take_sublist 5 _).mem he
    have hmem2 : e ∈ scoredFrom q 0 paths :=
      (sortByScoreDesc_perm _).mem_iff.mp hmem
    rcases mem_scoredFrom 0 hmem2 with ⟨j, _, he1, he2, he3, he4⟩
    refine ⟨?_, he3, he4⟩
    rw [he1, Nat.zero_add]
    exact he2

theorem claim_C7_ambiguous_display_witness :
    ([(0, ("/p/apollo").toList, (520 : Int)), (1, ("/p/apple").toList, 520),
        (2, ("/p/apex").toList, 520)] : List MatchEntry).length ≤ 5 ∧
    ([(0, ("/p/apollo").toList, (520 : Int)), (1, ("/p/apple").toList, 520),
        (2, ("/p/apex").toList, 520)] : List MatchEntry).Pairwise entRel ∧
    ∀ e ∈ ([(0, ("/p/apollo").toList, (520 : Int)),
        (1, ("/p/apple").toList, 520),
        (2, ("/p/apex").toList, 520)] : List MatchEntry),
      [("/p/apollo").toList, ("/p/apple").toList, ("/p/apex").toList].get? e.1
          = some e.2.1 ∧
      e.2.2 = calculate_match_score (get_project_name e.2.1) (("ap").toList) ∧
      0 < e.2.2 :=
  claim_C7_ambiguous_display
    [("/p/apollo").toList, ("/p/apple").toList, ("/p/apex").toList]
    (("ap").toList)
    [(0, ("/p/apollo").toList, 520), (1, ("/p/apple").toList, 520),
      (2, ("/p/apex").toList, 520)]
    (by decide)

/-- Claim C10: when the fuzzy-subsequence branch succeeds, the score is the
length of the (lower-cased, hence same-length) query; therefore two
candidates matched only by the fuzzy rule under the same non-empty query
score identically, and whenever both are present the resolver reports
ambiguity rather than picking either one. -/
theorem claim_C10_fuzzy_tie (paths : List (List Char)) (q : List Char)
    (hq : q ≠ [])
    (hnum : ∀ k, parseUsize q = some k → paths.length ≤ k)
    (i j : Nat) (hi : i < paths.length) (hj : j < paths.length) (hij : i ≠ j)
    (hFi1 : toLowerStr (get_project_name (paths.get ⟨i, hi⟩)) ≠ toLowerStr q)
    (hFi2 : startsWith (toLowerStr (get_project_name (paths.get ⟨i, hi⟩)))
      (toLowerStr q) = false)
    (hFi3 : containsSub (toLowerStr (get_project_name (paths.get ⟨i, hi⟩)))
      (toLowerStr q) = false)
    (hFi4 : (toLowerStr q).Sublist
      (toLowerStr (get_project_name (paths.get ⟨i, hi⟩))))
    (hFj1 : toLowerStr (get_project_name (paths.get ⟨j, hj⟩)) ≠ toLowerStr q)
    (hFj2 : startsWith (toLowerStr (get_project_name (paths.get ⟨j, hj⟩)))
      (toLowerStr q) = false)
    (hFj3 : containsSub (toLowerStr (get_project_name (paths.get ⟨j, hj⟩)))
      (toLowerStr q) = false)
    (hFj4 : (toLowerStr q).Sublist
      (toLowerStr (get_project_name (paths.get ⟨j, hj⟩)))) :
    calculate_match_score (get_project_name (paths.get ⟨i, hi⟩)) q
      = (q.length : Int) ∧
    calculate_match_score (get_project_name (paths.get ⟨i, hi⟩)) q
      = calculate_match_score (get_project_name (paths.get ⟨j, hj⟩)) q ∧
    ∃ shown, resolve paths q = ResolveResult.ambiguous shown := by
  have hsi := score_of_fuzzy_success hFi1 hFi2 hFi3 hFi4
  have hsj := score_of_fuzzy_success hFj1 hFj2 hFj3 hFj4
  have hpos : (0 : Int) < (q.length : Int) := by
    have h0 : 0 < q.length := List.length_pos.mpr hq
    exact_mod_cast h0
  have hmi := mem_scoredFrom_of 0 i hi (by rw [hsi]; exact hpos)
  have hmj := mem_scoredFrom_of 0 j hj (by rw [hsj]; exact hpos)
  have hne : ((0 + i : Nat), paths.get ⟨i, hi⟩,
      calculate_match_score (get_project_name (paths.get ⟨i, hi⟩)) q) ≠
      ((0 + j : Nat), paths.get ⟨j, hj⟩,
      calculate_match_score (get_project_name (paths.get ⟨j, hj⟩)) q) := by
    intro hcontra
    exact hij (by simpa using congrArg Prod.fst hcontra)
  have h2 : 2 ≤ (scoredFrom q 0 paths).length := two_mem_length hmi hmj hne
  rcases textResolve_ambiguous_of_two h2 with ⟨shown, hshown⟩
  exact ⟨hsi, by rw [hsi, hsj], shown,
    (resolve_eq_textResolve hnum).trans hshown⟩

theorem claim_C10_fuzzy_tie_witness :
    calculate_match_score (get_project_name
        (([("/p/fxe").toList, ("/p/fye").toList] : List (List Char)).get
          ⟨0, by decide⟩)) (("fe").toList) = ((("fe").toList).length : Int) ∧
    calculate_match_score (get_project_name
        (([("/p/fxe").toList, ("/p/fye").toList] : List (List Char)).get
          ⟨0, by decide⟩)) (("fe").toList)
      = calculate_match_score (get_project_name
        (([("/p/fxe").toList, ("/p/fye").toList] : List (List Char)).get
          ⟨1, by decide⟩)) (("fe").toList) ∧
    ∃ shown, resolve [("/p/fxe").toList, ("/p/fye").toList] (("fe").toList)
      = ResolveResult.ambiguous shown :=
  claim_C10_fuzzy_tie [("/p/fxe").toList, ("/p/fye").toList] (("fe").toList)
    (by decide)
    (fun k hk => by
      rw [show parseUsize (("fe").toList) = none from by decide] at hk
      cases hk)
    0 1 (by decide) (by decide) (by decide)
    (by decide) (by decide) (by decide) (by decide)
    (by decide) (by decide) (by decide) (by decide)
